import Mathlib

/-!
Verification of the text-cleaning grading task (`task.py`).

The Python source is embedded shallowly: strings are `List Char`, the three
regular expressions of the source (`<.*?>`, `\s+`, `\w+`) are modelled by
executable scanning functions with the exact semantics of the Python `re`
module on them (in particular `.` does not match a newline), dynamic Python
values are the inductive `PyVal`, and Python sets of strings are duplicate-free
`List (List Char)` compared extensionally.  The stdout-redirecting expression
tool is modelled by explicit state passing, with exceptions as an `Except`
result.
-/

/-- Model of Python `str.isspace`-class characters as matched by `\s` for the
ASCII range used by the task: space, tab, newline, carriage return, vertical
tab, form feed. -/
def pyIsSpace (c : Char) : Bool :=
  (c.toNat == 32) || (c.toNat == 9) || (c.toNat == 10) || (c.toNat == 13) ||
    (c.toNat == 11) || (c.toNat == 12)

/-- Model of the `\w` character class (ASCII range): letters, digits,
underscore. -/
def isWordChar (c : Char) : Bool :=
  (decide (97 ≤ c.toNat) && decide (c.toNat ≤ 122)) ||
  (decide (65 ≤ c.toNat) && decide (c.toNat ≤ 90)) ||
  (decide (48 ≤ c.toNat) && decide (c.toNat ≤ 57)) ||
  (c.toNat == 95)

/-- The 26 ASCII uppercase letters with their lowercase forms; the character
level content of Python `str.lower` on the task's data. -/
def upperMap : List (Char × Char) :=
  [( 'A', 'a'), ( 'B', 'b'), ( 'C', 'c'), ( 'D', 'd'), ( 'E', 'e'), ( 'F', 'f'),
   ( 'G', 'g'), ( 'H', 'h'), ( 'I', 'i'), ( 'J', 'j'), ( 'K', 'k'), ( 'L', 'l'),
   ( 'M', 'm'), ( 'N', 'n'), ( 'O', 'o'), ( 'P', 'p'), ( 'Q', 'q'), ( 'R', 'r'),
   ( 'S', 's'), ( 'T', 't'), ( 'U', 'u'), ( 'V', 'v'), ( 'W', 'w'), ( 'X', 'x'),
   ( 'Y', 'y'), ( 'Z', 'z')]

/-- Per-character model of Python `str.lower` (ASCII case folding; all
characters appearing in the task's data are ASCII or case-invariant). -/
def pyLower (c : Char) : Char :=
  match upperMap.find? (fun p => p.1 == c) with
  | some p => p.2
  | none => c

/-- `text.lower()` on a whole string. -/
def lowerStr (l : List Char) : List Char := l.map pyLower

/-- Scanning helper for the lazy tag pattern `<.*?>`: starting just after a
`<`, return the suffix after the first `>` reachable without crossing a
newline (`.` does not match `\n`), or `none` when the pattern cannot close. -/
def findGt : List Char → Option (List Char)
  | [] => none
  | c :: rest =>
      if c = '>' then some rest
      else if c = '\n' then none
      else findGt rest

/-- Fuel-indexed worker for `re.sub(r"<.*?>", "", s)`: scan left to right;
at each `<` that closes, drop through the first `>` and continue after it;
any other character is kept.  The fuel is always at least the list length at
the call sites, so the `0` row is dead. -/
def stripTagsF : Nat → List Char → List Char
  | _, [] => []
  | 0, l => l
  | fuel + 1, c :: rest =>
      if c = '<' then
        match findGt rest with
        | some after => stripTagsF fuel after
        | none => c :: stripTagsF fuel rest
      else c :: stripTagsF fuel rest

/-- `re.sub(r"<.*?>", "", s)`. -/
def stripTags (l : List Char) : List Char := stripTagsF l.length l

/-- `re.sub(r"\s+", " ", s)`: replace every maximal whitespace run by one
space. -/
def collapseWs : List Char → List Char
  | [] => []
  | [c] => [if pyIsSpace c then ' ' else c]
  | c :: d :: rest =>
      if pyIsSpace c && pyIsSpace d then collapseWs (d :: rest)
      else (if pyIsSpace c then ' ' else c) :: collapseWs (d :: rest)

/-- Python `str.strip()`: drop whitespace from both ends. -/
def stripList (l : List Char) : List Char :=
  ((List.dropWhile pyIsSpace l).reverse.dropWhile pyIsSpace).reverse

/-- `re.sub(r"\s+", " ", s).strip()`, the whitespace normalization shared by
`_canonical_clean` and `grading_func`. -/
def normWs (l : List Char) : List Char := stripList (collapseWs l)

/-- Worker for `re.findall(r"\w+", s)`; `acc` holds the reversed current run
of word characters. -/
def tokensAux : List Char → List Char → List (List Char)
  | acc, [] => if acc = [] then [] else [acc.reverse]
  | acc, c :: rest =>
      if isWordChar c then tokensAux (c :: acc) rest
      else if acc = [] then tokensAux [] rest
      else acc.reverse :: tokensAux [] rest

/-- `re.findall(r"\w+", s)`: the maximal word-character runs of `s`. -/
def pyTokens (l : List Char) : List (List Char) := tokensAux [] l

/-- `TOXIC_WORDS = {"idiot", "stupid", "nonsense"}`. -/
def TOXIC_WORDS : List (List Char) :=
  [ "idiot".toList, "stupid".toList, "nonsense".toList]

/-- `any(tok in TOXIC_WORDS for tok in re.findall(r"\w+", s))`. -/
def hasToxic (l : List Char) : Bool :=
  (pyTokens l).any (fun t => decide (t ∈ TOXIC_WORDS))

/-- Dynamic Python values, as far as the task manipulates them. -/
inductive PyVal where
  | str : List Char → PyVal
  | int : Int → PyVal
  | list : List PyVal → PyVal
  | tuple : List PyVal → PyVal
  | pynone : PyVal

/-- The lowercase / tag-strip / whitespace-normalize pipeline of
`_canonical_clean` before its guards. -/
def cleanStage (l : List Char) : List Char := normWs (stripTags (lowerStr l))

/-- `_canonical_clean(text)`: `None` for non-strings, else lowercase, strip
HTML tags, normalize whitespace, reject toxic tokens, reject the empty
string. -/
def _canonical_clean : PyVal → Option (List Char)
  | PyVal.str text =>
      let s := cleanStage text
      if hasToxic s then none
      else if s = [] then none
      else some s
  | _ => none

/-- `ORIGINAL_REVIEWS`, the fixed 9-record reference dataset. -/
def ORIGINAL_REVIEWS : List PyVal :=
  [ PyVal.str ( "I LOVE this product!!!  ".toList),
    PyVal.str ( "<br>Terrible idea... absolutely STUPID design<br>".toList),
    PyVal.str ( "Decent, could be better".toList),
    PyVal.str ( "I love this product!!!".toList),
    PyVal.str ( "<div>What a nonsense feature</div>".toList),
    PyVal.str ( "Pretty good overall".toList),
    PyVal.str ( "This is an IDIOT move".toList),
    PyVal.str ( "Pretty good overall  ".toList),
    PyVal.str ( "Excellent — highly recommend!".toList)]

/-- Python `set.add`: append only when the element is absent (a set of
strings is modelled as a duplicate-free list). -/
def setInsert (x : List Char) (s : List (List Char)) : List (List Char) :=
  if x ∈ s then s else s ++ [x]

/-- The canonical cleaned set built by `grading_func` from the reference
dataset (`canonical` in the source). -/
def canonicalList : List (List Char) :=
  ORIGINAL_REVIEWS.foldl
    (fun acc r =>
      match _canonical_clean r with
      | some cleaned => setInsert cleaned acc
      | none => acc) []

/-- Python `==` on two sets represented as duplicate-free lists: mutual
membership. -/
def setEq (a b : List (List Char)) : Bool :=
  a.all (fun x => decide (x ∈ b)) && b.all (fun x => decide (x ∈ a))

/-- The per-element loop of `grading_func` over the submitted list, carrying
the `seen` set; on the empty rest it performs the final `seen == canonical`
check. -/
def gradeLoop (seen : List (List Char)) : List PyVal → Bool
  | [] => setEq seen canonicalList
  | PyVal.str item :: rest =>
      if '<' ∈ item ∨ '>' ∈ item then false
      else if lowerStr item ≠ item then false
      else
        let norm := normWs item
        if hasToxic norm then false
        else if norm ∈ seen then false
        else if norm ∉ canonicalList then false
        else gradeLoop (seen ++ [norm]) rest
  | _ :: _ => false

/-- `grading_func(result)`: `False` unless the submission is a Python list;
otherwise run the per-element loop with an empty `seen` set. -/
def grading_func : PyVal → Bool
  | PyVal.list items => gradeLoop [] items
  | _ => false

/-- Model of the process-wide `sys.stdout` target as an abstract identifier;
the expression tool swaps it and must restore it. -/
abbrev StdoutTarget := Nat

/-- Outcome of `exec(expression, local_ns, local_ns)` on the agent's code:
normal termination with the captured stdout text, an ordinary `Exception`
with its `str(e)` message, or a `KeyboardInterrupt`. -/
inductive ExecOutcome where
  | ok : List Char → ExecOutcome
  | exc : List Char → ExecOutcome
  | interrupt : ExecOutcome

/-- Exceptions that can cross the tool's boundary. -/
inductive PyExc where
  | exception : List Char → PyExc
  | keyboardInterrupt : PyExc

/-- Result dictionary of `python_expression_tool`. -/
structure PythonExpressionToolResult where
  result : Option (List Char)
  error : Option (List Char)
  deriving DecidableEq

/-- The `exec` + `sys.stdout.getvalue()` body as a state transformer on the
stdout target: it returns captured output or signals the raised exception;
it does not itself change the target. -/
def execBody (o : ExecOutcome) (s : StdoutTarget) :
    (Except PyExc (List Char)) × StdoutTarget :=
  match o with
  | ExecOutcome.ok out => (Except.ok out, s)
  | ExecOutcome.exc m => (Except.error (PyExc.exception m), s)
  | ExecOutcome.interrupt => (Except.error PyExc.keyboardInterrupt, s)

/-- `try ... finally fin`: run the body, then run the finalizer on the state
no matter whether the body returned or raised. -/
def tryFinallyS {α : Type} (body : StdoutTarget → (Except PyExc α) × StdoutTarget)
    (fin : StdoutTarget → StdoutTarget) (s : StdoutTarget) :
    (Except PyExc α) × StdoutTarget :=
  let r := body s
  (r.1, fin r.2)

/-- `python_expression_tool(expression)`: save `sys.stdout`, redirect it to a
fresh buffer, exec the code under `try/finally` restoring the old target,
then catch ordinary exceptions as an error dictionary while re-raising
`KeyboardInterrupt`.  The execution outcome and the fresh buffer id are
parameters; the returned pair is (tool result or escaping exception,
stdout target after the call). -/
def python_expression_tool (o : ExecOutcome) (fresh : StdoutTarget)
    (s₀ : StdoutTarget) : (Except PyExc PythonExpressionToolResult) × StdoutTarget :=
  let old := s₀
  let s₁ := fresh
  let (r, s₂) := tryFinallyS (execBody o) (fun _ => old) s₁
  match r with
  | Except.ok out => (Except.ok ⟨some out, none⟩, s₂)
  | Except.error (PyExc.exception m) => (Except.ok ⟨none, some m⟩, s₂)
  | Except.error PyExc.keyboardInterrupt =>
      (Except.error PyExc.keyboardInterrupt, s₂)

/-- The four expected canonical rows of the fixture. -/
def cleanedReviews : List (List Char) :=
  [ "i love this product!!!".toList,
    "decent, could be better".toList,
    "pretty good overall".toList,
    "excellent — highly recommend!".toList]

/-- Boolean test: does the tag pattern `<.*?>` match anywhere in `l`? -/
def hasTag : List Char → Bool
  | [] => false
  | c :: rest => ((c == '<') && (findGt rest).isSome) || hasTag rest

/-- Boolean test: does a `<` occur anywhere before a `>` (newlines allowed
in between)? -/
def hasLtGt : List Char → Bool
  | [] => false
  | c :: rest => ((c == '<') && decide ( '>' ∈ rest)) || hasLtGt rest

/-- Only the characters `<` and `>`. -/
def angleFilter (l : List Char) : List Char :=
  l.filter (fun c => (c == '<') || (c == '>'))

/-- Adjacent characters are never both whitespace. -/
def noWsPair (a b : Char) : Prop := ¬(pyIsSpace a = true ∧ pyIsSpace b = true)

theorem findGt_length : ∀ (l l' : List Char), findGt l = some l' → l'.length < l.length
  | [], _, h => by simp [findGt] at h
  | c :: rest, l', h => by
      unfold findGt at h
      split at h
      · cases h
        simp
      · split at h
        · cases h
        · exact Nat.lt_trans (findGt_length rest l' h) (by simp)

theorem findGt_mem : ∀ (l l' : List Char), findGt l = some l' → ∀ c ∈ l', c ∈ l
  | [], _, h => by simp [findGt] at h
  | c :: rest, l', h => by
      unfold findGt at h
      split at h
      · cases h
        intro x hx
        exact List.mem_cons_of_mem _ hx
      · split at h
        · cases h
        · intro x hx
          exact List.mem_cons_of_mem _ (findGt_mem rest l' h x hx)

theorem findGt_gt_mem : ∀ (l l' : List Char), findGt l = some l' → '>' ∈ l
  | [], _, h => by simp [findGt] at h
  | c :: rest, l', h => by
      unfold findGt at h
      split at h
      · rename_i hc
        exact hc ▸ List.mem_cons_self _ _
      · split at h
        · cases h
        · exact List.mem_cons_of_mem _ (findGt_gt_mem rest l' h)

theorem findGt_isSome : ∀ (l : List Char), '>' ∈ l → '\n' ∉ l → (findGt l).isSome = true
  | [], h, _ => by cases h
  | c :: rest, h, hn => by
      unfold findGt
      split
      · rfl
      · rename_i hc
        split
        · rename_i he
          exact absurd (he ▸ List.mem_cons_self _ _) hn
        · have hr : '>' ∈ rest := by
            rcases List.mem_cons.mp h with h1 | h1
            · exact absurd h1.symm hc
            · exact h1
          exact findGt_isSome rest hr (fun hx => hn (List.mem_cons_of_mem _ hx))

theorem stripTagsF_congr : ∀ (f₁ f₂ : Nat) (l : List Char),
    l.length ≤ f₁ → l.length ≤ f₂ → stripTagsF f₁ l = stripTagsF f₂ l
  | _, _, [], _, _ => by simp [stripTagsF]
  | 0, _, c :: rest, h₁, _ => by simp at h₁
  | _ + 1, 0, c :: rest, _, h₂ => by simp at h₂
  | f₁ + 1, f₂ + 1, c :: rest, h₁, h₂ => by
      have hr₁ : rest.length ≤ f₁ := by simpa using h₁
      have hr₂ : rest.length ≤ f₂ := by simpa using h₂
      unfold stripTagsF
      split
      · cases hfg : findGt rest with
        | some after =>
            have hl := findGt_length rest after hfg
            exact stripTagsF_congr f₁ f₂ after
              (Nat.le_of_lt (Nat.lt_of_lt_of_le hl hr₁))
              (Nat.le_of_lt (Nat.lt_of_lt_of_le hl hr₂))
        | none => rw [stripTagsF_congr f₁ f₂ rest hr₁ hr₂]
      · rw [stripTagsF_congr f₁ f₂ rest hr₁ hr₂]

theorem stripTagsF_eq_stripTags (f : Nat) (l : List Char) (h : l.length ≤ f) :
    stripTagsF f l = stripTags l :=
  stripTagsF_congr f l.length l h (Nat.le_refl _)

theorem stripTagsF_succ (f : Nat) (c : Char) (rest : List Char) :
    stripTagsF (f + 1) (c :: rest) =
      if c = '<' then
        match findGt rest with
        | some after => stripTagsF f after
        | none => c :: stripTagsF f rest
      else c :: stripTagsF f rest := rfl

theorem stripTags_nil : stripTags [] = [] := rfl

theorem stripTags_cons_some {rest after : List Char} (h : findGt rest = some after) :
    stripTags ( '<' :: rest) = stripTags after := by
  unfold stripTags
  rw [List.length_cons, stripTagsF_succ, if_pos rfl, h]
  exact stripTagsF_eq_stripTags _ _ (Nat.le_of_lt (findGt_length rest after h))

theorem stripTags_cons_none {rest : List Char} (h : findGt rest = none) :
    stripTags ( '<' :: rest) = '<' :: stripTags rest := by
  unfold stripTags
  rw [List.length_cons, stripTagsF_succ, if_pos rfl, h]

theorem stripTags_cons_ne {c : Char} {rest : List Char} (h : ¬ c = '<') :
    stripTags (c :: rest) = c :: stripTags rest := by
  unfold stripTags
  rw [List.length_cons, stripTagsF_succ, if_neg h]

theorem mem_stripTags : ∀ (l : List Char), ∀ c ∈ stripTags l, c ∈ l
  | [] => by simp [stripTags_nil]
  | c :: rest => by
      by_cases hc : c = '<'
      · subst hc
        cases hfg : findGt rest with
        | some after =>
            rw [stripTags_cons_some hfg]
            intro x hx
            exact List.mem_cons_of_mem _
              (findGt_mem rest after hfg x (mem_stripTags after x hx))
        | none =>
            rw [stripTags_cons_none hfg]
            intro x hx
            rcases List.mem_cons.mp hx with h1 | h1
            · exact h1 ▸ List.mem_cons_self _ _
            · exact List.mem_cons_of_mem _ (mem_stripTags rest x h1)
      · rw [stripTags_cons_ne hc]
        intro x hx
        rcases List.mem_cons.mp hx with h1 | h1
        · exact h1 ▸ List.mem_cons_self _ _
        · exact List.mem_cons_of_mem _ (mem_stripTags rest x h1)
termination_by l => l.length
decreasing_by
  all_goals first
    | exact Nat.lt_succ_of_lt (findGt_length rest after hfg)
    | simp

theorem findGt_none_strip : ∀ (l : List Char), findGt l = none → findGt (stripTags l) = none
  | [] => by
      intro _
      simp [stripTags_nil, findGt]
  | c :: rest => by
      intro h
      unfold findGt at h
      split at h
      · cases h
      · rename_i hgt
        split at h
        · rename_i hnl
          subst hnl
          rw [stripTags_cons_ne (by decide)]
          simp [findGt]
        · rename_i hnl
          by_cases hc : c = '<'
          · subst hc
            rw [stripTags_cons_none h]
            unfold findGt
            rw [if_neg (by decide), if_neg (by decide)]
            exact findGt_none_strip rest h
          · rw [stripTags_cons_ne hc]
            unfold findGt
            rw [if_neg hgt, if_neg hnl]
            exact findGt_none_strip rest h
termination_by l => l.length
decreasing_by all_goals simp

theorem stripTags_noTag : ∀ (l : List Char), hasTag (stripTags l) = false
  | [] => by simp [stripTags_nil, hasTag]
  | c :: rest => by
      by_cases hc : c = '<'
      · subst hc
        cases hfg : findGt rest with
        | some after =>
            rw [stripTags_cons_some hfg]
            exact stripTags_noTag after
        | none =>
            rw [stripTags_cons_none hfg]
            unfold hasTag
            rw [findGt_none_strip rest hfg]
            simp [stripTags_noTag rest]
      · rw [stripTags_cons_ne hc]
        unfold hasTag
        simp [hc, stripTags_noTag rest]
termination_by l => l.length
decreasing_by
  all_goals first
    | exact Nat.lt_succ_of_lt (findGt_length rest after hfg)
    | simp

theorem stripTags_of_noTag : ∀ (l : List Char), hasTag l = false → stripTags l = l
  | [] => fun _ => stripTags_nil
  | c :: rest => by
      intro h
      unfold hasTag at h
      rw [Bool.or_eq_false_iff] at h
      obtain ⟨h1, h2⟩ := h
      by_cases hc : c = '<'
      · subst hc
        rw [Bool.and_eq_false_iff] at h1
        rcases h1 with h1 | h1
        · simp at h1
        · have hfg : findGt rest = none := by
            cases hfg : findGt rest with
            | some after => rw [hfg] at h1; cases h1
            | none => rfl
          rw [stripTags_cons_none hfg, stripTags_of_noTag rest h2]
      · rw [stripTags_cons_ne hc, stripTags_of_noTag rest h2]
termination_by l => l.length
decreasing_by all_goals simp

theorem hasTag_imp_hasLtGt : ∀ (l : List Char), hasTag l = true → hasLtGt l = true
  | [] => by simp [hasTag]
  | c :: rest => by
      intro h
      unfold hasTag at h
      unfold hasLtGt
      rw [Bool.or_eq_true_iff] at h ⊢
      rcases h with h | h
      · left
        rw [Bool.and_eq_true_iff] at h ⊢
        refine ⟨h.1, ?_⟩
        cases hfg : findGt rest with
        | some after => simp [findGt_gt_mem rest after hfg]
        | none => rw [hfg] at h; simp at h
      · right
        exact hasTag_imp_hasLtGt rest h

theorem hasLtGt_imp_hasTag : ∀ (l : List Char), '\n' ∉ l →
    hasLtGt l = true → hasTag l = true
  | [] => by simp [hasLtGt]
  | c :: rest => by
      intro hnl h
      unfold hasLtGt at h
      unfold hasTag
      rw [Bool.or_eq_true_iff] at h ⊢
      rcases h with h | h
      · left
        rw [Bool.and_eq_true_iff] at h ⊢
        refine ⟨h.1, ?_⟩
        have hgt : '>' ∈ rest := by simpa using h.2
        exact findGt_isSome rest hgt (fun hx => hnl (List.mem_cons_of_mem _ hx))
      · right
        exact hasLtGt_imp_hasTag rest (fun hx => hnl (List.mem_cons_of_mem _ hx)) h

theorem angleFilter_cons (c : Char) (rest : List Char) :
    angleFilter (c :: rest) =
      if ((c == '<') || (c == '>')) = true then c :: angleFilter rest
      else angleFilter rest := by
  simp only [angleFilter, List.filter_cons]

theorem gt_mem_angleFilter (l : List Char) : '>' ∈ angleFilter l ↔ '>' ∈ l := by
  simp [angleFilter, List.mem_filter]

theorem hasLtGt_angleFilter : ∀ (l : List Char), hasLtGt (angleFilter l) = hasLtGt l
  | [] => rfl
  | c :: rest => by
      rw [angleFilter_cons]
      by_cases hc : ((c == '<') || (c == '>')) = true
      · rw [if_pos hc]
        show (((c == '<') && decide ( '>' ∈ angleFilter rest)) || hasLtGt (angleFilter rest)) =
          (((c == '<') && decide ( '>' ∈ rest)) || hasLtGt rest)
        rw [hasLtGt_angleFilter rest]
        have : decide ( '>' ∈ angleFilter rest) = decide ( '>' ∈ rest) := by
          simp [gt_mem_angleFilter rest]
        rw [this]
      · rw [if_neg hc]
        rw [hasLtGt_angleFilter rest]
        have hcf : ((c == '<') || (c == '>')) = false := by simpa using hc
        have hne : (c == '<') = false := (Bool.or_eq_false_iff.mp hcf).1
        show hasLtGt rest = (((c == '<') && decide ( '>' ∈ rest)) || hasLtGt rest)
        rw [hne]
        simp

theorem ws_not_angle {c : Char} (h : pyIsSpace c = true) :
    ((c == '<') || (c == '>')) = false := by
  have h1 : c ≠ '<' := by
    intro he
    subst he
    exact absurd h (by decide)
  have h2 : c ≠ '>' := by
    intro he
    subst he
    exact absurd h (by decide)
  simp [h1, h2]

theorem angleFilter_cons_ws {c : Char} (rest : List Char) (h : pyIsSpace c = true) :
    angleFilter (c :: rest) = angleFilter rest := by
  rw [angleFilter_cons]
  rw [if_neg (show ¬((c == '<') || (c == '>')) = true by rw [ws_not_angle h]; simp)]

theorem angleFilter_collapseWs : ∀ (l : List Char), angleFilter (collapseWs l) = angleFilter l
  | [] => rfl
  | [c] => by
      show angleFilter [if pyIsSpace c then ' ' else c] = angleFilter [c]
      by_cases hws : pyIsSpace c = true
      · rw [if_pos hws]
        rw [angleFilter_cons_ws [] (by decide), angleFilter_cons_ws [] hws]
      · rw [if_neg hws]
  | c :: d :: rest => by
      show angleFilter (collapseWs (c :: d :: rest)) = angleFilter (c :: d :: rest)
      unfold collapseWs
      by_cases h : (pyIsSpace c && pyIsSpace d) = true
      · rw [if_pos h]
        have hc : pyIsSpace c = true := (Bool.and_eq_true_iff.mp h).1
        rw [angleFilter_collapseWs (d :: rest), angleFilter_cons_ws (d :: rest) hc]
      · rw [if_neg h]
        by_cases hc : pyIsSpace c = true
        · rw [if_pos hc]
          rw [angleFilter_cons_ws _ (show pyIsSpace ' ' = true by decide),
            angleFilter_cons_ws _ hc]
          exact angleFilter_collapseWs (d :: rest)
        · rw [if_neg hc]
          rw [angleFilter_cons, angleFilter_cons]
          by_cases ha : ((c == '<') || (c == '>')) = true
          · rw [if_pos ha, if_pos ha, angleFilter_collapseWs (d :: rest)]
          · rw [if_neg ha, if_neg ha]
            exact angleFilter_collapseWs (d :: rest)

theorem angleFilter_dropWhile : ∀ (l : List Char),
    angleFilter (List.dropWhile pyIsSpace l) = angleFilter l
  | [] => rfl
  | c :: rest => by
      rw [List.dropWhile_cons]
      by_cases h : pyIsSpace c = true
      · rw [if_pos h, angleFilter_dropWhile rest, angleFilter_cons_ws rest h]
      · rw [if_neg h]

theorem angleFilter_reverse (l : List Char) :
    angleFilter l.reverse = (angleFilter l).reverse := by
  simp [angleFilter, List.filter_reverse]

theorem angleFilter_stripList (l : List Char) :
    angleFilter (stripList l) = angleFilter l := by
  unfold stripList
  rw [angleFilter_reverse, angleFilter_dropWhile, angleFilter_reverse,
    List.reverse_reverse, angleFilter_dropWhile]

theorem angleFilter_normWs (l : List Char) : angleFilter (normWs l) = angleFilter l := by
  unfold normWs
  rw [angleFilter_stripList, angleFilter_collapseWs]

theorem hasLtGt_normWs (l : List Char) : hasLtGt (normWs l) = hasLtGt l := by
  rw [← hasLtGt_angleFilter (normWs l), angleFilter_normWs, hasLtGt_angleFilter]

theorem pyLower_idem (c : Char) : pyLower (pyLower c) = pyLower c := by
  cases hf : upperMap.find? (fun p => p.1 == c) with
  | none =>
      have h1 : pyLower c = c := by unfold pyLower; rw [hf]
      rw [h1]
      exact h1
  | some p =>
      have h1 : pyLower c = p.2 := by unfold pyLower; rw [hf]
      rw [h1]
      have hmem : p ∈ upperMap := List.mem_of_find?_eq_some hf
      fin_cases hmem <;> decide

theorem pyLower_newline {c : Char} (h : pyLower c = '\n') : c = '\n' := by
  cases hf : upperMap.find? (fun p => p.1 == c) with
  | none =>
      have h1 : pyLower c = c := by unfold pyLower; rw [hf]
      rw [h1] at h
      exact h
  | some p =>
      have h1 : pyLower c = p.2 := by unfold pyLower; rw [hf]
      rw [h1] at h
      have hmem : p ∈ upperMap := List.mem_of_find?_eq_some hf
      exfalso
      fin_cases hmem <;> exact absurd h (by decide)

theorem lowerStr_fixed {l : List Char} (h : ∀ c ∈ l, pyLower c = c) : lowerStr l = l := by
  unfold lowerStr
  rw [List.map_congr_left h]
  exact List.map_id l

theorem noWsPair_symm {a b : Char} (h : noWsPair a b) : noWsPair b a :=
  fun hc => h ⟨hc.2, hc.1⟩

theorem pyIsSpace_ite (d : Char) :
    pyIsSpace (if pyIsSpace d then ' ' else d) = pyIsSpace d := by
  by_cases hd : pyIsSpace d = true
  · rw [if_pos hd, hd]
    decide
  · rw [if_neg hd]

theorem mem_collapseWs : ∀ (l : List Char), ∀ c ∈ collapseWs l, c ∈ l ∨ c = ' '
  | [] => by simp [collapseWs]
  | [d] => by
      intro c hc
      unfold collapseWs at hc
      have h : c = if pyIsSpace d then ' ' else d := List.mem_singleton.mp hc
      by_cases hws : pyIsSpace d = true
      · rw [if_pos hws] at h
        exact Or.inr h
      · rw [if_neg hws] at h
        exact Or.inl (h ▸ List.mem_singleton_self d)
  | d :: e :: rest => by
      intro c hc
      unfold collapseWs at hc
      by_cases h : (pyIsSpace d && pyIsSpace e) = true
      · rw [if_pos h] at hc
        rcases mem_collapseWs (e :: rest) c hc with h1 | h1
        · exact Or.inl (List.mem_cons_of_mem _ h1)
        · exact Or.inr h1
      · rw [if_neg h] at hc
        rcases List.mem_cons.mp hc with h1 | h1
        · by_cases hws : pyIsSpace d = true
          · rw [if_pos hws] at h1
            exact Or.inr h1
          · rw [if_neg hws] at h1
            exact Or.inl (h1 ▸ List.mem_cons_self _ _)
        · rcases mem_collapseWs (e :: rest) c h1 with h2 | h2
          · exact Or.inl (List.mem_cons_of_mem _ h2)
          · exact Or.inr h2

theorem collapseWs_ws_space : ∀ (l : List Char), ∀ c ∈ collapseWs l,
    pyIsSpace c = true → c = ' '
  | [] => by simp [collapseWs]
  | [d] => by
      intro c hc hw
      unfold collapseWs at hc
      have h : c = if pyIsSpace d then ' ' else d := List.mem_singleton.mp hc
      by_cases hws : pyIsSpace d = true
      · rw [if_pos hws] at h
        exact h
      · rw [if_neg hws] at h
        subst h
        exact absurd hw hws
  | d :: e :: rest => by
      intro c hc hw
      unfold collapseWs at hc
      by_cases h : (pyIsSpace d && pyIsSpace e) = true
      · rw [if_pos h] at hc
        exact collapseWs_ws_space (e :: rest) c hc hw
      · rw [if_neg h] at hc
        rcases List.mem_cons.mp hc with h1 | h1
        · by_cases hws : pyIsSpace d = true
          · rw [if_pos hws] at h1
            exact h1
          · rw [if_neg hws] at h1
            subst h1
            exact absurd hw hws
        · exact collapseWs_ws_space (e :: rest) c h1 hw

theorem collapseWs_head? : ∀ (d : Char) (rest : List Char),
    (collapseWs (d :: rest)).head? = some (if pyIsSpace d then ' ' else d)
  | _, [] => rfl
  | d, e :: rest => by
      unfold collapseWs
      by_cases h : (pyIsSpace d && pyIsSpace e) = true
      · rw [if_pos h]
        rw [collapseWs_head? e rest]
        have hd : pyIsSpace d = true := (Bool.and_eq_true_iff.mp h).1
        have he : pyIsSpace e = true := (Bool.and_eq_true_iff.mp h).2
        rw [if_pos hd, if_pos he]
      · rw [if_neg h]
        rfl

theorem collapseWs_chain : ∀ (l : List Char), List.Chain' noWsPair (collapseWs l)
  | [] => List.chain'_nil
  | [d] => by
      unfold collapseWs
      exact List.chain'_singleton _
  | d :: e :: rest => by
      unfold collapseWs
      by_cases h : (pyIsSpace d && pyIsSpace e) = true
      · rw [if_pos h]
        exact collapseWs_chain (e :: rest)
      · rw [if_neg h]
        rw [List.chain'_cons']
        refine ⟨?_, collapseWs_chain (e :: rest)⟩
        intro y hy
        have hy' : (if pyIsSpace e then ' ' else e) = y := by
          rw [collapseWs_head? e rest] at hy
          simpa using hy
        subst hy'
        intro hcon
        obtain ⟨ha, hb⟩ := hcon
        rw [pyIsSpace_ite] at ha hb
        exact h (by rw [Bool.and_eq_true_iff]; exact ⟨ha, hb⟩)

theorem mem_stripList {l : List Char} {c : Char} (h : c ∈ stripList l) : c ∈ l := by
  unfold stripList at h
  rw [List.mem_reverse] at h
  have h1 := (List.dropWhile_sublist pyIsSpace).mem h
  rw [List.mem_reverse] at h1
  exact (List.dropWhile_sublist pyIsSpace).mem h1

theorem chain'_dropWhile (p : Char → Bool) :
    ∀ (l : List Char), List.Chain' noWsPair l → List.Chain' noWsPair (List.dropWhile p l)
  | [] => fun h => h
  | c :: rest => fun h => by
      rw [List.dropWhile_cons]
      by_cases hp : p c = true
      · rw [if_pos hp]
        exact chain'_dropWhile p rest h.tail
      · rw [if_neg hp]
        exact h

theorem chain'_noWsPair_reverse {l : List Char} (h : List.Chain' noWsPair l) :
    List.Chain' noWsPair l.reverse := by
  rw [List.chain'_reverse]
  exact h.imp (fun a b hab => noWsPair_symm hab)

theorem chain'_stripList {l : List Char} (h : List.Chain' noWsPair l) :
    List.Chain' noWsPair (stripList l) := by
  unfold stripList
  exact chain'_noWsPair_reverse
    (chain'_dropWhile _ _ (chain'_noWsPair_reverse (chain'_dropWhile _ _ h)))

theorem dropWhile_head?_false (p : Char → Bool) :
    ∀ (l : List Char) (c : Char), (List.dropWhile p l).head? = some c → p c = false
  | [] => by
      intro c h
      simp [List.dropWhile] at h
  | d :: rest => by
      intro c h
      rw [List.dropWhile_cons] at h
      by_cases hp : p d = true
      · rw [if_pos hp] at h
        exact dropWhile_head?_false p rest c h
      · rw [if_neg hp] at h
        have hdc : d = c := by simpa using h
        subst hdc
        simpa using hp

theorem dropWhile_eq_self_of (p : Char → Bool) (l : List Char)
    (h : ∀ c, l.head? = some c → p c = false) : List.dropWhile p l = l := by
  cases l with
  | nil => rfl
  | cons d rest =>
      have hd := h d rfl
      rw [List.dropWhile_cons, if_neg (by simp [hd])]

theorem stripList_head?_false {l : List Char} {c : Char}
    (h : (stripList l).head? = some c) : pyIsSpace c = false := by
  unfold stripList at h
  rw [List.head?_reverse] at h
  have hbne : List.dropWhile pyIsSpace (List.dropWhile pyIsSpace l).reverse ≠ [] := by
    intro hbe
    rw [hbe] at h
    simp at h
  have h3 : (List.dropWhile pyIsSpace l).reverse.getLast? =
      (List.dropWhile pyIsSpace (List.dropWhile pyIsSpace l).reverse).getLast? := by
    conv_lhs => rw [← List.takeWhile_append_dropWhile pyIsSpace (List.dropWhile pyIsSpace l).reverse]
    exact List.getLast?_append_of_ne_nil _ hbne
  rw [← h3] at h
  rw [List.getLast?_reverse] at h
  exact dropWhile_head?_false pyIsSpace l c h

theorem stripList_getLast?_false {l : List Char} {c : Char}
    (h : (stripList l).getLast? = some c) : pyIsSpace c = false := by
  unfold stripList at h
  rw [List.getLast?_reverse] at h
  exact dropWhile_head?_false pyIsSpace _ c h

theorem stripList_eq_self {l : List Char}
    (hh : ∀ c, l.head? = some c → pyIsSpace c = false)
    (hl : ∀ c, l.getLast? = some c → pyIsSpace c = false) : stripList l = l := by
  unfold stripList
  rw [dropWhile_eq_self_of pyIsSpace l hh]
  rw [dropWhile_eq_self_of pyIsSpace l.reverse
    (fun c hc => hl c (by rwa [List.head?_reverse] at hc))]
  exact List.reverse_reverse l

theorem collapseWs_eq_self : ∀ (l : List Char),
    (∀ c ∈ l, pyIsSpace c = true → c = ' ') → List.Chain' noWsPair l → collapseWs l = l
  | [] => fun _ _ => rfl
  | [d] => fun h1 _ => by
      show [if pyIsSpace d then ' ' else d] = [d]
      by_cases hd : pyIsSpace d = true
      · rw [if_pos hd, h1 d (List.mem_singleton_self d) hd]
      · rw [if_neg hd]
  | d :: e :: rest => fun h1 h2 => by
      unfold collapseWs
      have hde : noWsPair d e := (List.chain'_cons.mp h2).1
      have hcond : (pyIsSpace d && pyIsSpace e) = false := by
        rw [Bool.and_eq_false_iff]
        by_cases hd : pyIsSpace d = true
        · by_cases he : pyIsSpace e = true
          · exact absurd ⟨hd, he⟩ hde
          · right
            simpa using he
        · left
          simpa using hd
      rw [if_neg (by simp [hcond])]
      have htail := collapseWs_eq_self (e :: rest)
        (fun c hc hw => h1 c (List.mem_cons_of_mem _ hc) hw)
        (List.chain'_cons.mp h2).2
      rw [htail]
      by_cases hd : pyIsSpace d = true
      · rw [if_pos hd, h1 d (List.mem_cons_self _ _) hd]
      · rw [if_neg hd]

theorem normWs_ws_space {l : List Char} {c : Char} (hc : c ∈ normWs l)
    (hw : pyIsSpace c = true) : c = ' ' :=
  collapseWs_ws_space l c (mem_stripList hc) hw

theorem normWs_chain (l : List Char) : List.Chain' noWsPair (normWs l) :=
  chain'_stripList (collapseWs_chain l)

theorem normWs_head?_false {l : List Char} {c : Char}
    (h : (normWs l).head? = some c) : pyIsSpace c = false :=
  stripList_head?_false h

theorem normWs_getLast?_false {l : List Char} {c : Char}
    (h : (normWs l).getLast? = some c) : pyIsSpace c = false :=
  stripList_getLast?_false h

theorem mem_normWs {l : List Char} {c : Char} (h : c ∈ normWs l) : c ∈ l ∨ c = ' ' :=
  mem_collapseWs l c (mem_stripList h)

theorem normWs_idem (l : List Char) : normWs (normWs l) = normWs l := by
  have h1 : collapseWs (normWs l) = normWs l :=
    collapseWs_eq_self (normWs l)
      (fun c hc hw => normWs_ws_space hc hw)
      (normWs_chain l)
  show stripList (collapseWs (normWs l)) = normWs l
  rw [h1]
  exact stripList_eq_self
    (fun c hc => normWs_head?_false hc)
    (fun c hc => normWs_getLast?_false hc)

theorem cleanStage_idem {l : List Char} (hnl : '\n' ∉ l) :
    cleanStage (cleanStage l) = cleanStage l := by
  have hlow : lowerStr (cleanStage l) = cleanStage l := by
    apply lowerStr_fixed
    intro c hc
    have hc' : c ∈ normWs (stripTags (lowerStr l)) := hc
    rcases mem_normWs hc' with h1 | h1
    · have h2 := mem_stripTags _ c h1
      obtain ⟨d, _, hd⟩ := List.mem_map.mp h2
      rw [← hd]
      exact pyLower_idem d
    · subst h1
      decide
  have hnlt : '\n' ∉ stripTags (lowerStr l) := by
    intro hx
    have h2 := mem_stripTags _ _ hx
    obtain ⟨d, hdl, hd⟩ := List.mem_map.mp h2
    exact hnl ((pyLower_newline hd) ▸ hdl)
  have hLtGt : hasLtGt (stripTags (lowerStr l)) = false := by
    cases hv : hasLtGt (stripTags (lowerStr l)) with
    | false => rfl
    | true =>
        have h3 := hasLtGt_imp_hasTag _ hnlt hv
        rw [stripTags_noTag] at h3
        cases h3
  have hLtGt2 : hasLtGt (cleanStage l) = false := by
    show hasLtGt (normWs (stripTags (lowerStr l))) = false
    rw [hasLtGt_normWs]
    exact hLtGt
  have hTag2 : hasTag (cleanStage l) = false := by
    cases hv : hasTag (cleanStage l) with
    | false => rfl
    | true =>
        have h3 := hasTag_imp_hasLtGt _ hv
        rw [hLtGt2] at h3
        cases h3
  have hstrip : stripTags (cleanStage l) = cleanStage l := stripTags_of_noTag _ hTag2
  have hnws : normWs (cleanStage l) = cleanStage l := by
    show normWs (normWs (stripTags (lowerStr l))) = normWs (stripTags (lowerStr l))
    exact normWs_idem _
  show normWs (stripTags (lowerStr (cleanStage l))) = cleanStage l
  rw [hlow, hstrip]
  exact hnws

theorem gradeLoop_eval : ∀ (items : List (List Char)) (seen : List (List Char)),
    (∀ s ∈ items, ¬( '<' ∈ s ∨ '>' ∈ s)) →
    (∀ s ∈ items, lowerStr s = s) →
    (∀ s ∈ items, hasToxic (normWs s) = false) →
    (items.map normWs).Nodup →
    (∀ s ∈ items, normWs s ∈ canonicalList) →
    (∀ s ∈ items, normWs s ∉ seen) →
    gradeLoop seen (items.map PyVal.str) = setEq (seen ++ items.map normWs) canonicalList
  | [], seen, _, _, _, _, _, _ => by simp [gradeLoop]
  | s :: rest, seen, h1, h2, h3, h4, h5, h6 => by
      have hs1 := h1 s (List.mem_cons_self _ _)
      have hs2 := h2 s (List.mem_cons_self _ _)
      have hs3 := h3 s (List.mem_cons_self _ _)
      have hs5 := h5 s (List.mem_cons_self _ _)
      have hs6 := h6 s (List.mem_cons_self _ _)
      rw [List.map_cons, List.map_cons]
      show (if '<' ∈ s ∨ '>' ∈ s then false
        else if lowerStr s ≠ s then false
        else if hasToxic (normWs s) then false
        else if normWs s ∈ seen then false
        else if normWs s ∉ canonicalList then false
        else gradeLoop (seen ++ [normWs s]) (rest.map PyVal.str)) =
        setEq (seen ++ normWs s :: rest.map normWs) canonicalList
      rw [if_neg hs1, if_neg (not_ne_iff.mpr hs2), if_neg (by simp [hs3]),
        if_neg hs6, if_neg (fun hc => hc hs5)]
      have hrec := gradeLoop_eval rest (seen ++ [normWs s])
        (fun x hx => h1 x (List.mem_cons_of_mem _ hx))
        (fun x hx => h2 x (List.mem_cons_of_mem _ hx))
        (fun x hx => h3 x (List.mem_cons_of_mem _ hx))
        (List.nodup_cons.mp h4).2
        (fun x hx => h5 x (List.mem_cons_of_mem _ hx))
        (fun x hx => by
          rw [List.mem_append, List.mem_singleton]
          intro hcon
          rcases hcon with hcon | hcon
          · exact h6 x (List.mem_cons_of_mem _ hx) hcon
          · exact (List.nodup_cons.mp h4).1 (hcon ▸ List.mem_map_of_mem normWs hx))
      rw [hrec, List.append_assoc, List.singleton_append]

theorem gradeLoop_true_mem : ∀ (items : List (List Char)) (seen : List (List Char)),
    gradeLoop seen (items.map PyVal.str) = true →
    ∀ x, (x ∈ seen ∨ x ∈ items.map normWs) ↔ x ∈ canonicalList
  | [], seen, h => by
      intro x
      simp only [List.map_nil, gradeLoop] at h
      rw [setEq, Bool.and_eq_true_iff] at h
      obtain ⟨ha, hb⟩ := h
      rw [List.all_eq_true] at ha hb
      simp only [List.map_nil, List.not_mem_nil, or_false]
      constructor
      · intro hx
        simpa using ha x hx
      · intro hx
        simpa using hb x hx
  | s :: rest, seen, h => by
      intro x
      rw [List.map_cons] at h
      have h' : (if '<' ∈ s ∨ '>' ∈ s then false
        else if lowerStr s ≠ s then false
        else if hasToxic (normWs s) then false
        else if normWs s ∈ seen then false
        else if normWs s ∉ canonicalList then false
        else gradeLoop (seen ++ [normWs s]) (rest.map PyVal.str)) = true := h
      split_ifs at h' with hc1 hc2 hc3 hc4 hc5
      have IH := gradeLoop_true_mem rest (seen ++ [normWs s]) h' x
      rw [List.mem_append, List.mem_singleton] at IH
      rw [List.map_cons, List.mem_cons]
      constructor
      · intro hx
        rcases hx with hx | hx
        · exact IH.mp (Or.inl (Or.inl hx))
        · rcases hx with hx | hx
          · exact IH.mp (Or.inl (Or.inr hx))
          · exact IH.mp (Or.inr hx)
      · intro hx
        rcases IH.mpr hx with (hx1 | hx1) | hx1
        · exact Or.inl hx1
        · exact Or.inr (Or.inl hx1)
        · exact Or.inr (Or.inr hx1)

/-- Claim C1: canonicalizing the 9 reference records yields exactly the four
expected canonical rows, and grading a list holding exactly those four rows,
in any order, returns true. -/
theorem claim_C1 :
    canonicalList = cleanedReviews ∧
    ∀ l : List (List Char), List.Perm l cleanedReviews →
      grading_func (PyVal.list (l.map PyVal.str)) = true := by
  refine ⟨by decide, ?_⟩
  intro l hperm
  show gradeLoop [] (l.map PyVal.str) = true
  have hfour : ∀ s ∈ l, s = "i love this product!!!".toList ∨
      s = "decent, could be better".toList ∨
      s = "pretty good overall".toList ∨
      s = "excellent — highly recommend!".toList := by
    intro s hs
    simpa [cleanedReviews] using hperm.mem_iff.mp hs
  have hprops : ∀ s ∈ l, ¬( '<' ∈ s ∨ '>' ∈ s) ∧ lowerStr s = s ∧
      hasToxic (normWs s) = false ∧ normWs s ∈ canonicalList ∧ normWs s = s := by
    intro s hs
    rcases hfour s hs with rfl | rfl | rfl | rfl <;>
      exact ⟨by decide, by decide, by decide, by decide, by decide⟩
  have hmap : l.map normWs = l := by
    rw [List.map_congr_left (fun s hs => (hprops s hs).2.2.2.2)]
    exact List.map_id l
  have heval := gradeLoop_eval l []
    (fun s hs => (hprops s hs).1)
    (fun s hs => (hprops s hs).2.1)
    (fun s hs => (hprops s hs).2.2.1)
    (by rw [hmap]; exact hperm.nodup_iff.mpr (by decide))
    (fun s hs => (hprops s hs).2.2.2.1)
    (fun s hs => List.not_mem_nil _)
  rw [heval, hmap, List.nil_append]
  have hc : canonicalList = cleanedReviews := by decide
  rw [setEq, Bool.and_eq_true_iff]
  refine ⟨?_, ?_⟩
  · rw [List.all_eq_true]
    intro x hx
    have hx2 : x ∈ cleanedReviews := hperm.mem_iff.mp hx
    rw [hc]
    simpa using hx2
  · rw [List.all_eq_true]
    intro x hx
    rw [hc] at hx
    simpa using hperm.mem_iff.mpr hx

/-- Witness for C1 at the concrete canonical list itself. -/
theorem claim_C1_witness :
    grading_func (PyVal.list (cleanedReviews.map PyVal.str)) = true :=
  claim_C1.2 cleanedReviews (List.Perm.refl cleanedReviews)

/-- Claim C2: whenever the grader accepts a list of strings, the set of
whitespace-normalized submitted rows is exactly the canonical set; and
under-submitting 3 of the 4 rows, or over-submitting the 4 rows plus an
extra row, yields false. -/
theorem claim_C2 :
    (∀ items : List (List Char),
      grading_func (PyVal.list (items.map PyVal.str)) = true →
      ∀ x, x ∈ items.map normWs ↔ x ∈ canonicalList) ∧
    grading_func (PyVal.list ([ "i love this product!!!".toList,
      "decent, could be better".toList,
      "pretty good overall".toList].map PyVal.str)) = false ∧
    grading_func (PyVal.list
      ((cleanedReviews ++ [ "absolutely fabricated row".toList]).map PyVal.str)) = false := by
  refine ⟨?_, by decide, by decide⟩
  intro items h x
  have hmem := gradeLoop_true_mem items [] h x
  simpa using hmem

/-- Witness for C2 at the concrete canonical list. -/
theorem claim_C2_witness :
    ( "i love this product!!!".toList ∈ cleanedReviews.map normWs ↔
      "i love this product!!!".toList ∈ canonicalList) :=
  claim_C2.1 cleanedReviews (by decide) ( "i love this product!!!".toList)

/-- Counterexample to C3: a tuple holding exactly the four canonical rows is
rejected while the list of them is accepted, so the structural check does not
accept every sequence type. -/
theorem claim_C3_cex :
    grading_func (PyVal.tuple (cleanedReviews.map PyVal.str)) = false ∧
    grading_func (PyVal.list (cleanedReviews.map PyVal.str)) = true :=
  ⟨by decide, by decide⟩

/-- Claim C3 (amended): the structural check accepts only Python lists; every
non-list submission, including a tuple of the canonical rows, returns false
immediately, while the list of the canonical rows returns true. -/
theorem claim_C3_amended :
    (∀ v : PyVal, (∀ items, v ≠ PyVal.list items) → grading_func v = false) ∧
    grading_func (PyVal.list (cleanedReviews.map PyVal.str)) = true ∧
    grading_func (PyVal.tuple (cleanedReviews.map PyVal.str)) = false := by
  refine ⟨?_, by decide, by decide⟩
  intro v hv
  cases v with
  | list items => exact absurd rfl (hv items)
  | str s => rfl
  | int n => rfl
  | tuple items => rfl
  | pynone => rfl

/-- Witness for the amended C3 at a concrete non-list value. -/
theorem claim_C3_witness : grading_func (PyVal.int 0) = false :=
  claim_C3_amended.1 (PyVal.int 0) (fun _ h => PyVal.noConfusion h)

/-- Counterexample to C4: canonicalize is not idempotent — a record holding
a newline between angle brackets canonicalizes to a string that a second
canonicalization rejects (the whitespace normalization turns the newline into
a space, creating a tag the second pass strips to emptiness). -/
theorem claim_C4_cex :
    _canonical_clean (PyVal.str ( "<\n>".toList)) = some ( "< >".toList) ∧
    _canonical_clean (PyVal.str ( "< >".toList)) = none :=
  ⟨by decide, by decide⟩

/-- Claim C4 (amended): for every string containing no newline character, if
canonicalize returns a string then canonicalizing that output returns it
unchanged. -/
theorem claim_C4_amended : ∀ (l s' : List Char), '\n' ∉ l →
    _canonical_clean (PyVal.str l) = some s' →
    _canonical_clean (PyVal.str s') = some s' := by
  intro l s' hnl h
  have h' : (if hasToxic (cleanStage l) then (none : Option (List Char))
      else if cleanStage l = [] then none else some (cleanStage l)) = some s' := h
  by_cases ht : hasToxic (cleanStage l) = true
  · rw [if_pos ht] at h'
    cases h'
  · rw [if_neg ht] at h'
    by_cases he : cleanStage l = []
    · rw [if_pos he] at h'
      cases h'
    · rw [if_neg he] at h'
      have hs : cleanStage l = s' := Option.some.inj h'
      subst hs
      have hidem := cleanStage_idem hnl
      show (if hasToxic (cleanStage (cleanStage l)) then (none : Option (List Char))
        else if cleanStage (cleanStage l) = [] then none
        else some (cleanStage (cleanStage l))) = some (cleanStage l)
      rw [hidem, if_neg ht, if_neg he]

/-- Witness for the amended C4 at a concrete newline-free record. -/
theorem claim_C4_witness :
    _canonical_clean (PyVal.str ( "hello world".toList)) = some ( "hello world".toList) :=
  claim_C4_amended ( "  Hello   World  ".toList) ( "hello world".toList) (by decide) (by decide)

/-- Claim C5: the toxicity filter is whole-word — a record whose tokens
include "stupidity" but no exact toxic token is not rejected, while any
record whose cleaned form has the token "stupid" (e.g. the input contained
"STUPID" in any case) is rejected. -/
theorem claim_C5 :
    (∀ l : List Char, "stupidity".toList ∈ pyTokens (cleanStage l) →
      (∀ t ∈ pyTokens (cleanStage l), t ∉ TOXIC_WORDS) →
      _canonical_clean (PyVal.str l) ≠ none) ∧
    (∀ l : List Char, "stupid".toList ∈ pyTokens (cleanStage l) →
      _canonical_clean (PyVal.str l) = none) := by
  constructor
  · intro l h1 h2
    have htox : hasToxic (cleanStage l) = false := by
      cases hv : hasToxic (cleanStage l) with
      | false => rfl
      | true =>
          rw [hasToxic, List.any_eq_true] at hv
          obtain ⟨t, ht, htx⟩ := hv
          exact absurd (of_decide_eq_true htx) (h2 t ht)
    have hne : cleanStage l ≠ [] := by
      intro he
      rw [he] at h1
      exact absurd h1 (by decide)
    show (if hasToxic (cleanStage l) then (none : Option (List Char))
      else if cleanStage l = [] then none else some (cleanStage l)) ≠ none
    rw [if_neg (by simp [htox]), if_neg hne]
    simp
  · intro l h1
    have htox : hasToxic (cleanStage l) = true := by
      rw [hasToxic, List.any_eq_true]
      exact ⟨ "stupid".toList, h1, by decide⟩
    show (if hasToxic (cleanStage l) then (none : Option (List Char))
      else if cleanStage l = [] then none else some (cleanStage l)) = none
    rw [if_pos htox]

/-- Witness for C5 at concrete records containing "stupidity" and "STUPID". -/
theorem claim_C5_witness :
    _canonical_clean (PyVal.str ( "pure stupidity".toList)) ≠ none ∧
    _canonical_clean (PyVal.str ( "This is STUPID".toList)) = none :=
  ⟨claim_C5.1 ( "pure stupidity".toList) (by decide) (by decide),
   claim_C5.2 ( "This is STUPID".toList) (by decide)⟩

/-- Claim C6: the grader is a total boolean function on every dynamic value
shape — it never raises. -/
theorem claim_C6 : ∀ v : PyVal, grading_func v = true ∨ grading_func v = false := by
  intro v
  cases h : grading_func v with
  | true => exact Or.inl rfl
  | false => exact Or.inr rfl

/-- Claim C7: an ordinary runtime fault in the executed code is returned as
a result-none / error-message dictionary, while a keyboard interrupt is
re-raised and propagates out of the tool call. -/
theorem claim_C7 : ∀ (m : List Char) (fresh s₀ : StdoutTarget),
    (python_expression_tool (ExecOutcome.exc m) fresh s₀).1 =
      Except.ok ⟨none, some m⟩ ∧
    (python_expression_tool ExecOutcome.interrupt fresh s₀).1 =
      Except.error PyExc.keyboardInterrupt := by
  intro m fresh s₀
  exact ⟨rfl, rfl⟩

/-- Claim C8: the stdout target in effect before the tool call is restored on
every exit path — normal return, caught fault, and propagating interrupt. -/
theorem claim_C8 : ∀ (o : ExecOutcome) (fresh s₀ : StdoutTarget),
    (python_expression_tool o fresh s₀).2 = s₀ := by
  intro o fresh s₀
  cases o <;> rfl

/-- Claim C9: the grader compares whitespace-normalized forms — a submission
whose third row carries extra internal and trailing whitespace is still
accepted, although that row is not literally a canonical row. -/
theorem claim_C9 :
    grading_func (PyVal.list [ PyVal.str ( "i love this product!!!".toList),
      PyVal.str ( "decent, could be better".toList),
      PyVal.str ( "pretty  good overall ".toList),
      PyVal.str ( "excellent — highly recommend!".toList)]) = true ∧
    "pretty  good overall ".toList ∉ canonicalList ∧
    normWs ( "pretty  good overall ".toList) = "pretty good overall".toList :=
  ⟨by decide, by decide, by decide⟩

/-- Claim C10: tag stripping removes only matched bracket pairs — an input
with an unmatched angle bracket canonicalizes to a non-rejected string that
still contains the bracket; the canonical set of the fixed dataset is
nevertheless free of angle brackets. -/
theorem claim_C10 :
    _canonical_clean (PyVal.str ( "a < b".toList)) = some ( "a < b".toList) ∧
    '<' ∈ ( "a < b".toList) ∧
    ∀ s ∈ canonicalList, ¬( '<' ∈ s ∨ '>' ∈ s) :=
  ⟨by decide, by decide, by decide⟩

/-- Witness for C10's canonical-set part at a concrete canonical row. -/
theorem claim_C10_witness :
    ¬( '<' ∈ ( "i love this product!!!".toList) ∨
       '>' ∈ ( "i love this product!!!".toList)) :=
  claim_C10.2.2 ( "i love this product!!!".toList) (by decide)
